import Mathlib

/-!
# Verification of the auto-complete trie (src/trie.py)

Shallow embedding of the `TrieNode` and `Trie` classes from `src/trie.py`.

Modelling conventions:
* Python strings are `List Char` (`Key`); `len`, character iteration and
  comparisons coincide with the source exactly.
* Python dicts (`children`, `response_count`) are insertion-ordered
  association lists; `d[k] = v` / `defaultdict` increments preserve the key
  position of an existing key and append a fresh key at the end, matching
  CPython dict semantics, which the source relies on for tie-breaking in
  `sorted`.
* `max_suggestions` is a `PyNum`: an `int` or a `float` (the source is only
  ever exercised with integral floats such as `5.0`, so the float payload is
  an `Int`; the behaviour under test depends only on the sign and on
  int-vs-float).
* Exceptions become `Except PyErr`; `PyErr` covers the exceptions the
  source can raise: `ValueError`/`TypeError` in `generate_suggestions`
  (negative limit, non-int slice index), `TypeError` for `x in None`,
  `AttributeError` for `None.copy()`, `KeyError` for `del d[missing]` and
  missing dict lookups.
* In-place mutation becomes state passing.  One insertion walks a single
  root-to-leaf path; `_store_substring` retroactively mutates ancestor
  nodes ("`_nodes_with_response`"), and those mutations are never read back
  by the rest of the same traversal (the traversal only consults the
  current node and `_response_count_along_path`, which is a `.copy()`).
  The embedding therefore performs the walk top-down and returns the list
  of pending `(substring, add_count)` events in chronological order; on
  unwinding, each node that had a non-empty `response_count` when it was
  visited (exactly the nodes appended to `_nodes_with_response`) applies
  the events generated strictly below it, in order.  This reproduces the
  final state of the imperative loop exactly.
-/

/-- Exception kinds raised by the code in `src/trie.py`. -/
inductive PyErr : Type
  | valueError
  | typeError
  | keyError
  | attributeError
deriving DecidableEq, Repr

/-- A Python number used as `max_suggestions`: an `int` or an (integral)
`float`.  `float n` stands for the float `n.0` (e.g. `float 5` is `5.0`). -/
inductive PyNum : Type
  | int (n : Int)
  | float (n : Int)
deriving DecidableEq, Repr

/-- Python's `max_suggestions < 0` test: sign test, valid for ints and floats. -/
def PyNum.isNeg : PyNum → Bool
  | .int n => n < 0
  | .float n => n < 0

instance {ε α : Type} [DecidableEq ε] [DecidableEq α] : DecidableEq (Except ε α) := fun x y =>
  match x, y with
  | .error a, .error b =>
    if h : a = b then .isTrue (by rw [h]) else .isFalse (fun he => by cases he; exact h rfl)
  | .error _, .ok _ => .isFalse (fun he => by cases he)
  | .ok _, .error _ => .isFalse (fun he => by cases he)
  | .ok a, .ok b =>
    if h : a = b then .isTrue (by rw [h]) else .isFalse (fun he => by cases he; exact h rfl)

/-- A Python string, as its character sequence. -/
abbrev Key := List Char

/-- Convert a Lean string literal to a `Key`. -/
def str (s : String) : Key := s.data

/-- A Python dict with string keys and int values, in insertion order. -/
abbrev Dict := List (Key × Nat)

/-- Ordered association-list lookup (`d[k]`, first match). -/
def alistGet {α : Type} : List (Key × α) → Key → Option α
  | [], _ => none
  | (k', v) :: r, k => if k = k' then some v else alistGet r k

/-- Dict assignment `d[k] = v`: replace in place if the key exists, else append at the end
(CPython dict assignment semantics). -/
def alistSet {α : Type} : List (Key × α) → Key → α → List (Key × α)
  | [], k, v => [(k, v)]
  | (k', v') :: r, k, v => if k = k' then (k, v) :: r else (k', v') :: alistSet r k v

/-- Defaulting read `d.get(k, 0)` as used by `defaultdict(int)` reads. -/
def dictGet (d : Dict) (k : Key) : Nat := (alistGet d k).getD 0

/-- Membership `k in d`. -/
def dictMem (d : Dict) (k : Key) : Bool := (alistGet d k).isSome

/-- Increment `d[k] += v` on a `defaultdict(int)`: create at 0 then add (fresh keys are
appended at the end of the insertion order). -/
def dictAdd : Dict → Key → Nat → Dict
  | [], k, v => [(k, v)]
  | (k', v') :: r, k, v => if k = k' then (k', v' + v) :: r else (k', v') :: dictAdd r k v

/-- Deletion `del d[k]`: raises `KeyError` when the key is absent. -/
def dictDel : Dict → Key → Except PyErr Dict
  | [], _ => .error .keyError
  | (k', v') :: r, k => if k = k' then .ok r else (dictDel r k).map ((k', v') :: ·)

/-- Python's `sum(d.values())`. -/
def dictSum (d : Dict) : Nat := (d.map (·.2)).sum

/-- Strict "ranks higher" comparison on suggestion keys: count descending,
then string length ascending — the order produced by
`sorted(keys, key=lambda x: (count[x], -len(x)), reverse=True)`. -/
def rankGt (d : Dict) (x y : Key) : Bool :=
  decide (dictGet d y < dictGet d x ∨ (dictGet d x = dictGet d y ∧ x.length < y.length))

/-- Stable descending insertion: place `x` after every strictly
higher-ranked element, before equal-ranked ones (which came later in the
original order). -/
def insertDesc (d : Dict) (x : Key) : List Key → List Key
  | [] => [x]
  | y :: ys => if rankGt d y x then y :: insertDesc d x ys else x :: y :: ys

/-- Stable descending sort; agrees with Python's stable
`sorted(l, key=..., reverse=True)`. -/
def sortKeysDesc (d : Dict) (l : List Key) : List Key := l.foldr (insertDesc d) []

/-- Embeds `TrieNode.generate_suggestions` (src/trie.py lines 41-57) as the pure
computation of the new `suggestions` value.  `if max_suggestions < 0` raises
`ValueError` (for ints and floats alike); the slice `[:max_suggestions]`
raises `TypeError` when `max_suggestions` is not an integer; otherwise the
keys of `response_count` (in dict order) are stably sorted by
(count descending, length ascending) and truncated. -/
def generate_suggestions (rc : Dict) (ms : PyNum) : Except PyErr (List Key) :=
  if ms.isNeg then .error .valueError
  else match ms with
    | .float _ => .error .typeError
    | .int n => .ok ((sortKeysDesc rc (rc.map (·.1))).take n.toNat)

/-- A node of the trie (`TrieNode.__init__`, lines 34-39): a label, the
ordered children dict, the single-child flag, the response counter and the
cached suggestions. -/
inductive TrieNode : Type
  | mk (label : Key) (children : List (Key × TrieNode)) (hasSingleChild : Bool)
       (rc : Dict) (suggestions : List Key)

/-- Accessor for `self.label`. -/
def TrieNode.label : TrieNode → Key
  | .mk l _ _ _ _ => l

/-- Accessor for `self.children`. -/
def TrieNode.children : TrieNode → List (Key × TrieNode)
  | .mk _ c _ _ _ => c

/-- Accessor for `self.has_single_child`. -/
def TrieNode.hasSingleChild : TrieNode → Bool
  | .mk _ _ b _ _ => b

/-- Accessor for `self.response_count`. -/
def TrieNode.rc : TrieNode → Dict
  | .mk _ _ _ d _ => d

/-- Accessor for `self.suggestions`. -/
def TrieNode.suggestions : TrieNode → List Key
  | .mk _ _ _ _ s => s

/-- Assign `response_count` and `suggestions` together (every write of
`response_count` in the source is immediately followed by
`generate_suggestions`, which writes `suggestions`). -/
def TrieNode.setRcSugg (n : TrieNode) (d : Dict) (s : List Key) : TrieNode :=
  .mk n.label n.children n.hasSingleChild d s

/-- Assign `children`. -/
def TrieNode.setChildren (n : TrieNode) (c : List (Key × TrieNode)) : TrieNode :=
  .mk n.label c n.hasSingleChild n.rc n.suggestions

/-- Assign `has_single_child`. -/
def TrieNode.setFlag (n : TrieNode) (b : Bool) : TrieNode :=
  .mk n.label n.children b n.rc n.suggestions

/-- Constructor `TrieNode(label)`: empty children, flag `True`, empty counter, empty
suggestions. -/
def TrieNode.init (label : Key) : TrieNode := .mk label [] true [] []

/-- The `Trie` object (`Trie.__init__`, lines 82-88): the configuration and
the root node.  The `minWords` field embeds `min_words_partial`
(default 4). -/
structure Trie where
  maxSuggestions : PyNum
  minWords : Nat
  root : TrieNode

/-- Constructor `Trie(max_suggestions, min_words_partial)`: it stores the
configuration unchecked and creates a root labelled `'/'`. -/
def Trie.init (ms : PyNum) (mw : Nat) : Trie := ⟨ms, mw, TrieNode.init ['/']⟩

/-- Python `str.isspace` on the ASCII whitespace characters (sufficient for
this code: the inserted strings are sentences over ASCII). -/
def pyIsSpace (c : Char) : Bool :=
  c = ' ' || c = '\t' || c = '\n' || c = '\r' || c = '\x0b' || c = '\x0c'

/-- Drop leading whitespace. -/
def stripLeft : List Char → List Char
  | [] => []
  | c :: r => if pyIsSpace c then stripLeft r else c :: r

/-- Python `s.strip()`. -/
def pyStrip (l : List Char) : List Char :=
  ((stripLeft ((stripLeft l).reverse)).reverse)

/-- Python `s.split(' ')`: split on every single space, keeping empty
pieces; `''.split(' ') == ['']`. -/
def splitSp : List Char → List Key
  | [] => [[]]
  | c :: cs =>
    match splitSp cs with
    | [] => [[]]
    | w :: ws => if c = ' ' then [] :: w :: ws else (c :: w) :: ws

/-- Embeds `Trie._store_substring` (lines 191-215), up to the final loop over
`_nodes_with_response`: decides whether a substring event happens at this
transition and returns `(substring, add_count)` if so.  Mirrors the source
order: the word-boundary test on the current label, the word-count
threshold, then the membership test in the path snapshot — reading `x in
None` raises `TypeError` when no snapshot was ever recorded. -/
def store_substring (mw : Nat) (label inserted : Key) (snap : Option Dict) :
    Except PyErr (Option (Key × Nat)) :=
  if label ≠ [' '] then .ok none
  else
    let s := pyStrip inserted
    if (splitSp s).length < mw then .ok none
    else match snap with
      | none => .error .typeError
      | some d => .ok (some (s, if dictMem d s then 1 else dictSum d))

/-- Embeds `Trie._store_response_single_child` (lines 217-231): bypassed at the
root; otherwise the sole pre-existing child's counter becomes a copy of the
path snapshot with the in-flight response deleted, and its suggestions are
regenerated.  `None.copy()` raises `AttributeError`; deleting a missing key
raises `KeyError`. -/
def store_single_child (ms : PyNum) (response : Key) (isRoot : Bool) (snap : Option Dict)
    (child : TrieNode) : Except PyErr TrieNode :=
  if isRoot then .ok child
  else match snap with
    | none => .error .attributeError
    | some d => do
      let d1 ← dictDel d response
      let sugg ← generate_suggestions d1 ms
      .ok (child.setRcSugg d1 sugg)

/-- Embeds `Trie._create_new_branch` (lines 178-189): when the current node was
still unbranched, retroactively fix its sole child (`next(iter(...))` is
the first entry of the dict); then create the new child for `c` and clear
the flag. -/
def create_new_branch (ms : PyNum) (response : Key) (isRoot : Bool) (snap : Option Dict)
    (current : TrieNode) (c : Key) : Except PyErr TrieNode := do
  let current1 ←
    if current.hasSingleChild then
      match current.children with
      | [] => .error .keyError
      | (k0, ch0) :: _ => do
        let ch0' ← store_single_child ms response isRoot snap ch0
        .ok (current.setChildren (alistSet current.children k0 ch0'))
    else .ok current
  .ok ((current1.setChildren (alistSet current1.children c (TrieNode.init c))).setFlag false)

/-- One substring event landing on a node of `_nodes_with_response`:
`node.response_count[s] += add` followed by `node.generate_suggestions`. -/
def applySub (ms : PyNum) (n : TrieNode) (sub : Key × Nat) : Except PyErr TrieNode := do
  let rc1 := dictAdd n.rc sub.1 sub.2
  let sugg ← generate_suggestions rc1 ms
  .ok (n.setRcSugg rc1 sugg)

/-- Apply a chronological list of substring events to one node. -/
def applySubs (ms : PyNum) (n : TrieNode) (subs : List (Key × Nat)) : Except PyErr TrieNode :=
  subs.foldlM (applySub ms)  n

/-- The child-creation part of `Trie._visit_next_node` (lines 166-171):
create the first child when the current node has none, branch when the
wanted child is missing, reuse it otherwise. -/
def ensure_child (ms : PyNum) (response : Key) (isRoot : Bool) (snap1 : Option Dict)
    (current : TrieNode) (c : Key) : Except PyErr TrieNode :=
  match current.children with
  | [] => .ok (current.setChildren (alistSet current.children c (TrieNode.init c)))
  | _ :: _ =>
    if (alistGet current.children c).isSome then .ok current
    else create_new_branch ms response isRoot snap1 current c

/-- Embeds `Trie._store_response_next_node` (lines 233-249): bypassed unless the
current node is the root or has branched; at a decision transition, record
the substring event, then increment the destination's counter for the
in-flight response and regenerate its suggestions. -/
def decision_step (ms : PyNum) (mw : Nat) (response : Key) (isRoot : Bool)
    (current1 : TrieNode) (inserted : Key) (snap1 : Option Dict) (next : TrieNode) :
    Except PyErr (TrieNode × Option (Key × Nat)) :=
  if isRoot || !current1.hasSingleChild then do
    let subO ← store_substring mw current1.label inserted snap1
    let rc1 := dictAdd next.rc response 1
    let sugg ← generate_suggestions rc1 ms
    .ok (next.setRcSugg rc1 sugg, subO)
  else .ok (next, none)

/-- The insertion walk: `Trie._visit_next_node` (lines 158-176) iterated over
the remaining transition labels (each response character, then the `''`
sentinel).  Arguments mirror the traversal state: `isRoot` is
`current is self.root`, `snap` is `_response_count_along_path`, `inserted`
is `_inserted_chars`.  Returns the updated subtree and the chronological
substring events generated at this node and below; the events generated
strictly below a node are applied to it on unwinding exactly when the node
had a non-empty `response_count` at its visit (the `_nodes_with_response`
membership test). -/
def trieGo (ms : PyNum) (mw : Nat) (response : Key) :
    Bool → TrieNode → Option Dict → Key → List Key →
    Except PyErr (TrieNode × List (Key × Nat))
  | _, current, _, _, [] => .ok (current, [])
  | isRoot, current, snap, inserted, c :: rest => do
    -- refresh the path snapshot from the current node's counter
    let snap1 := if current.rc.isEmpty then snap else some current.rc
    let current1 ← ensure_child ms response isRoot snap1 current c
    match alistGet current1.children c with
    | none => .error .keyError
    | some next => do
      let step ← decision_step ms mw response isRoot current1 inserted snap1 next
      let r ← trieGo ms mw response false step.1 snap1 (inserted ++ c) rest
      let current2 ←
        if current.rc.isEmpty then .ok current1
        else applySubs ms current1 r.2
      .ok (current2.setChildren (alistSet current2.children c r.1),
           step.2.toList ++ r.2)

/-- Embeds `Trie.insert_response` (lines 90-111): walk the response character by
character, then one trailing `''` sentinel transition. -/
def insert_response (t : Trie) (response : Key) : Except PyErr Trie := do
  let labels := response.map (fun ch => [ch]) ++ [[]]
  let r ← trieGo t.maxSuggestions t.minWords response true t.root none [] labels
  .ok { t with root := r.1 }

/-- Insert a list of responses in order. -/
def insertList (t : Trie) : List Key → Except PyErr Trie
  | [] => .ok t
  | r :: rs => do insertList (← insert_response t r) rs

/-- The query walk of `Trie.generate_completions` /
`_generate_completions_by_char` (lines 113-127, 262-276): follow each
prefix character; an unmatched character clears the result and stops; a
matched child with non-empty cached suggestions replaces the result. -/
def genGo : TrieNode → List Key → List Char → List Key
  | _, acc, [] => acc
  | cur, acc, ch :: rest =>
    match alistGet cur.children [ch] with
    | some next => genGo next (if next.suggestions.isEmpty then acc else next.suggestions) rest
    | none => []

/-- Embeds `Trie.generate_completions(prefix)`. -/
def generate_completions (t : Trie) (pre : List Char) : List Key :=
  genGo t.root [] pre

/-- Look up the node reached from `n` along a list of transition labels. -/
def nodeAt : TrieNode → List Key → Option TrieNode
  | n, [] => some n
  | n, k :: ks =>
    match alistGet n.children k with
    | some m => nodeAt m ks
    | none => none

/-- The full object state during a query, for the frame property: the node
store (`root`), the position of `_current_node` inside it, and the
traversal attributes `_suggestions_along_path` / `_no_match`. -/
structure QueryState where
  store : TrieNode
  curPath : List Key
  sugg : List Key
  noMatch : Bool

/-- Embeds `Trie._reset_for_auto_complete` (lines 251-260). -/
def reset_for_auto_complete (t : Trie) : QueryState :=
  ⟨t.root, [], [], false⟩

/-- Embeds `Trie._generate_completions_by_char` (lines 262-276), with the
short-circuit of the caller's loop (`if self._no_match: break`) folded in as
a no-op once the flag is set. -/
def generate_completions_by_char (st : QueryState) (ch : Char) : QueryState :=
  if st.noMatch then st
  else match nodeAt st.store st.curPath with
    | none => st
    | some cur =>
      match alistGet cur.children [ch] with
      | some next =>
        { st with curPath := st.curPath ++ [[ch]],
                  sugg := if next.suggestions.isEmpty then st.sugg else next.suggestions }
      | none => { st with noMatch := true, sugg := [] }

/-- Embeds `Trie.generate_completions` with the whole object state threaded
through, for the frame property (the query never mutates the node store). -/
def generate_completions_st (t : Trie) (pre : List Char) : List Key × QueryState :=
  let st := pre.foldl generate_completions_by_char (reset_for_auto_complete t)
  (st.sugg, st)

/-! ## Invariants, spec-side descriptions and concrete instances -/

/-- Every reachable node's cached `suggestions` agrees with recomputing
`generate_suggestions` from its `response_count`. -/
def SuggOk (ms : Int) (root : TrieNode) : Prop :=
  ∀ p n, nodeAt root p = some n →
    generate_suggestions n.rc (.int ms) = .ok n.suggestions

/-- Every reachable node's `has_single_child` flag is true exactly when the
node has at most one child. -/
def FlagOk (root : TrieNode) : Prop :=
  ∀ p n, nodeAt root p = some n → (n.hasSingleChild = true ↔ n.children.length ≤ 1)

/-- A non-empty `response_count` occurs only at decision nodes: children of
the root (`isRoot = true`, path `[]`) and children of nodes with more than
one child. -/
def DecOk (isRoot : Bool) (root : TrieNode) : Prop :=
  ∀ p n k m, nodeAt root p = some n → alistGet n.children k = some m → m.rc ≠ [] →
    ((p = [] ∧ isRoot = true) ∨ 1 < n.children.length)

/-- All label-path prefixes of a label list (the set of paths an insertion
creates), always containing `[]`. -/
def prefixesOf : List Key → List (List Key)
  | [] => [[]]
  | c :: r => [] :: (prefixesOf r).map (c :: ·)

/-- The transition labels visited when inserting `r`: each character, then
the end-of-string sentinel. -/
def labelsOf (r : Key) : List Key := r.map (fun ch => [ch]) ++ [[]]

/-- The well-formedness invariant of a trie built through the public API
with a non-negative integer `max_suggestions`. -/
def TrieInv (ms : Int) (t : Trie) : Prop :=
  t.maxSuggestions = .int ms ∧ 0 ≤ ms ∧
  t.root.label = ['/'] ∧ t.root.rc = [] ∧
  SuggOk ms t.root ∧ FlagOk t.root ∧ DecOk true t.root

/-- The label path corresponding to a query prefix. -/
def labelsQ (pre : List Char) : List Key := pre.map (fun ch => [ch])

/-- The cached suggestion lists of the nodes entered while matching a fully
matched prefix, shallowest first (spec-side description of the query walk). -/
def pathSuggs (root : TrieNode) : List Char → List (List Key)
  | [] => []
  | ch :: rest =>
    match alistGet root.children [ch] with
    | some m => m.suggestions :: pathSuggs m rest
    | none => []

/-- The deepest non-empty entry of a list of suggestion lists (empty when
none is non-empty): the "most specific cached ranking" of the spec. -/
def lastNonempty (l : List (List Key)) : List Key :=
  l.foldl (fun acc s => if s.isEmpty then acc else s) []

/-- Recomputing a node's suggestions from its own counter, exactly as
`node.generate_suggestions(max_suggestions)` does in the source. -/
def regen (ms : PyNum) (n : TrieNode) : Except PyErr TrieNode := do
  let s ← generate_suggestions n.rc ms
  .ok (n.setRcSugg n.rc s)

/-- The six insertions of the spec's concrete scenario, in order. -/
def rsC2 : List Key :=
  [str "what is your account number and address",
   str "what is your account number",
   str "what is the account number",
   str "what is the issue you are facing",
   str "what is the issue you are facing",
   str "what is your account number please"]

/-- The completion list the spec requires for prefix `"w"`. -/
def expectedC2 : List Key :=
  [str "what is the",
   str "what is your account number",
   str "what is the issue you are facing",
   str "what is the account number",
   str "what is your account number please"]

/-- A small built trie used as a concrete witness input (two responses
that branch below the root: `"ab"` then `"ac"`). -/
def trieAB : Trie :=
  (insertList (Trie.init (.int 3) 4) [str "ab", str "ac"]).toOption.getD (Trie.init (.int 3) 4)

/-- The same two responses inserted in the opposite order. -/
def trieBA : Trie :=
  (insertList (Trie.init (.int 3) 4) [str "ac", str "ab"]).toOption.getD (Trie.init (.int 3) 4)

/-- The root's `'a'` child of `trieAB`. -/
def nodeA : TrieNode := (nodeAt trieAB.root [str "a"]).getD (TrieNode.init [])

/-! ## Basic lemmas about the embedded primitives -/

@[simp] theorem TrieNode.label_mk (l c b d s) : (TrieNode.mk l c b d s).label = l := rfl

@[simp] theorem TrieNode.children_mk (l c b d s) : (TrieNode.mk l c b d s).children = c := rfl

@[simp] theorem TrieNode.flag_mk (l c b d s) : (TrieNode.mk l c b d s).hasSingleChild = b := rfl

@[simp] theorem TrieNode.rc_mk (l c b d s) : (TrieNode.mk l c b d s).rc = d := rfl

@[simp] theorem TrieNode.suggestions_mk (l c b d s) : (TrieNode.mk l c b d s).suggestions = s := rfl

@[simp] theorem TrieNode.setRcSugg_label (n : TrieNode) (d s) : (n.setRcSugg d s).label = n.label := rfl

@[simp] theorem TrieNode.setRcSugg_children (n : TrieNode) (d s) :
    (n.setRcSugg d s).children = n.children := rfl

@[simp] theorem TrieNode.setRcSugg_flag (n : TrieNode) (d s) :
    (n.setRcSugg d s).hasSingleChild = n.hasSingleChild := rfl

@[simp] theorem TrieNode.setRcSugg_rc (n : TrieNode) (d s) : (n.setRcSugg d s).rc = d := rfl

@[simp] theorem TrieNode.setRcSugg_suggestions (n : TrieNode) (d s) :
    (n.setRcSugg d s).suggestions = s := rfl

@[simp] theorem TrieNode.setChildren_label (n : TrieNode) (c) : (n.setChildren c).label = n.label := rfl

@[simp] theorem TrieNode.setChildren_children (n : TrieNode) (c) :
    (n.setChildren c).children = c := rfl

@[simp] theorem TrieNode.setChildren_flag (n : TrieNode) (c) :
    (n.setChildren c).hasSingleChild = n.hasSingleChild := rfl

@[simp] theorem TrieNode.setChildren_rc (n : TrieNode) (c) : (n.setChildren c).rc = n.rc := rfl

@[simp] theorem TrieNode.setChildren_suggestions (n : TrieNode) (c) :
    (n.setChildren c).suggestions = n.suggestions := rfl

@[simp] theorem TrieNode.setFlag_label (n : TrieNode) (b) : (n.setFlag b).label = n.label := rfl

@[simp] theorem TrieNode.setFlag_children (n : TrieNode) (b) :
    (n.setFlag b).children = n.children := rfl

@[simp] theorem TrieNode.setFlag_flag (n : TrieNode) (b) : (n.setFlag b).hasSingleChild = b := rfl

@[simp] theorem TrieNode.setFlag_rc (n : TrieNode) (b) : (n.setFlag b).rc = n.rc := rfl

@[simp] theorem TrieNode.setFlag_suggestions (n : TrieNode) (b) :
    (n.setFlag b).suggestions = n.suggestions := rfl

@[simp] theorem TrieNode.init_label (l) : (TrieNode.init l).label = l := rfl

@[simp] theorem TrieNode.init_children (l) : (TrieNode.init l).children = [] := rfl

@[simp] theorem TrieNode.init_flag (l) : (TrieNode.init l).hasSingleChild = true := rfl

@[simp] theorem TrieNode.init_rc (l) : (TrieNode.init l).rc = [] := rfl

@[simp] theorem TrieNode.init_suggestions (l) : (TrieNode.init l).suggestions = [] := rfl

theorem alistGet_set {α : Type} (l : List (Key × α)) (k : Key) (v : α) (k' : Key) :
    alistGet (alistSet l k v) k' = if k' = k then some v else alistGet l k' := by
  induction l with
  | nil => simp only [alistSet, alistGet]
  | cons hd tl ih =>
    obtain ⟨k0, v0⟩ := hd
    by_cases h0 : k = k0
    · subst h0
      by_cases h1 : k' = k <;> simp [alistSet, alistGet, h1]
    · by_cases h1 : k' = k0
      · have h2 : ¬k' = k := fun h => h0 (h.symm.trans h1)
        have h3 : ¬k0 = k := fun h => h0 h.symm
        simp [alistSet, alistGet, h0, h1, h2, h3]
      · simp [alistSet, alistGet, h0, h1, ih]

theorem alistSet_length_of_mem {α : Type} (l : List (Key × α)) (k : Key) (v : α)
    (h : (alistGet l k).isSome) : (alistSet l k v).length = l.length := by
  induction l with
  | nil => simp [alistGet] at h
  | cons hd tl ih =>
    obtain ⟨k0, v0⟩ := hd
    by_cases h0 : k = k0
    · simp [alistSet, h0]
    · simp only [alistGet, if_neg h0] at h
      simp [alistSet, h0, ih h]

theorem alistSet_length_of_new {α : Type} (l : List (Key × α)) (k : Key) (v : α)
    (h : alistGet l k = none) : (alistSet l k v).length = l.length + 1 := by
  induction l with
  | nil => simp [alistSet]
  | cons hd tl ih =>
    obtain ⟨k0, v0⟩ := hd
    by_cases h0 : k = k0
    · simp [alistGet, if_pos h0] at h
    · simp only [alistGet, if_neg h0] at h
      simp [alistSet, h0, ih h]

theorem dictAdd_mem (d : Dict) (k : Key) (v : Nat) : dictMem (dictAdd d k v) k = true := by
  induction d with
  | nil => simp [dictAdd, dictMem, alistGet]
  | cons hd tl ih =>
    obtain ⟨k0, v0⟩ := hd
    by_cases h0 : k = k0
    · simp [dictAdd, dictMem, alistGet, h0]
    · simpa [dictAdd, dictMem, alistGet, h0] using ih

theorem dictAdd_ne_nil (d : Dict) (k : Key) (v : Nat) : dictAdd d k v ≠ [] := by
  cases d with
  | nil => simp [dictAdd]
  | cons hd tl =>
    obtain ⟨k0, v0⟩ := hd
    by_cases h0 : k = k0 <;> simp [dictAdd, h0]

theorem dictDel_ok (d : Dict) (k : Key) (h : dictMem d k = true) :
    ∃ d', dictDel d k = .ok d' := by
  induction d with
  | nil => simp [dictMem, alistGet] at h
  | cons hd tl ih =>
    obtain ⟨k0, v0⟩ := hd
    by_cases h0 : k = k0
    · exact ⟨tl, by simp [dictDel, h0]⟩
    · simp only [dictMem, alistGet, if_neg h0] at h
      obtain ⟨d', hd'⟩ := ih h
      exact ⟨(k0, v0) :: d', by simp [dictDel, h0, hd', Except.map]⟩

/-- For a non-negative integer limit, `generate_suggestions` always
succeeds, with the sort-and-truncate value. -/
theorem generate_suggestions_int (d : Dict) (n : Int) (h : 0 ≤ n) :
    generate_suggestions d (.int n) =
      .ok ((sortKeysDesc d (d.map (·.1))).take n.toNat) := by
  have : (PyNum.int n).isNeg = false := by
    simp [PyNum.isNeg]
    omega
  simp [generate_suggestions, this]

theorem generate_suggestions_len (d : Dict) (n : Int) (s : List Key)
    (h : generate_suggestions d (.int n) = .ok s) : s.length ≤ n.toNat := by
  by_cases hn : 0 ≤ n
  · rw [generate_suggestions_int d n hn] at h
    cases h
    exact List.length_take_le _ _
  · have : (PyNum.int n).isNeg = true := by
      simp [PyNum.isNeg]
      omega
    simp [generate_suggestions, this] at h

theorem generate_suggestions_nil (n : Int) (h : 0 ≤ n) :
    generate_suggestions [] (.int n) = .ok [] := by
  rw [generate_suggestions_int [] n h]
  simp [sortKeysDesc]

/-- Lemma: `applySubs` on a node whose suggestions are consistent with its counter
succeeds, touches only `rc`/`suggestions`, keeps a non-empty counter
non-empty, and preserves consistency. -/
theorem applySubs_ok (n : Int) (hn : 0 ≤ n) (subs : List (Key × Nat)) :
    ∀ node : TrieNode, generate_suggestions node.rc (.int n) = .ok node.suggestions →
    ∃ m, applySubs (.int n) node subs = .ok m ∧
      m.label = node.label ∧ m.children = node.children ∧
      m.hasSingleChild = node.hasSingleChild ∧
      (node.rc ≠ [] → m.rc ≠ []) ∧
      generate_suggestions m.rc (.int n) = .ok m.suggestions := by
  induction subs with
  | nil =>
    intro node hc
    exact ⟨node, rfl, rfl, rfl, rfl, fun h => h, hc⟩
  | cons sub rest ih =>
    intro node hc
    obtain ⟨s1, hs1⟩ : ∃ s1, generate_suggestions (dictAdd node.rc sub.1 sub.2) (.int n) = .ok s1 :=
      ⟨_, generate_suggestions_int _ n hn⟩
    set node1 := node.setRcSugg (dictAdd node.rc sub.1 sub.2) s1 with hnode1
    have hc1 : generate_suggestions node1.rc (.int n) = .ok node1.suggestions := by
      simpa [hnode1] using hs1
    obtain ⟨m, hm, hl, hch, hf, hne, hcm⟩ := ih node1 hc1
    refine ⟨m, ?_, ?_, ?_, ?_, ?_, hcm⟩
    · simp only [applySubs, List.foldlM] at *
      rw [applySub, hs1]
      simpa [hnode1] using hm
    · simpa [hnode1] using hl
    · simpa [hnode1] using hch
    · simpa [hnode1] using hf
    · intro _
      apply hne
      simp [hnode1]
      exact dictAdd_ne_nil _ _ _

/-! ## Tree invariants, stated over paths of transition labels -/

@[simp] theorem nodeAt_nil (n : TrieNode) : nodeAt n [] = some n := rfl

theorem nodeAt_cons (n : TrieNode) (k : Key) (ks : List Key) :
    nodeAt n (k :: ks) =
      match alistGet n.children k with
      | some m => nodeAt m ks
      | none => none := rfl

theorem suggOk_iff (ms : Int) (n : TrieNode) :
    SuggOk ms n ↔
      (generate_suggestions n.rc (.int ms) = .ok n.suggestions ∧
       ∀ k m, alistGet n.children k = some m → SuggOk ms m) := by
  constructor
  · intro h
    refine ⟨h [] n rfl, fun k m hk p m' hp => ?_⟩
    exact h (k :: p) m' (by simp [nodeAt_cons, hk, hp])
  · rintro ⟨htop, hch⟩ p n' hp
    cases p with
    | nil => cases hp; exact htop
    | cons k ks =>
      rw [nodeAt_cons] at hp
      cases hk : alistGet n.children k with
      | none => rw [hk] at hp; cases hp
      | some m =>
        rw [hk] at hp
        exact hch k m hk ks n' hp

theorem flagOk_iff (n : TrieNode) :
    FlagOk n ↔
      ((n.hasSingleChild = true ↔ n.children.length ≤ 1) ∧
       ∀ k m, alistGet n.children k = some m → FlagOk m) := by
  constructor
  · intro h
    refine ⟨h [] n rfl, fun k m hk p m' hp => ?_⟩
    exact h (k :: p) m' (by simp [nodeAt_cons, hk, hp])
  · rintro ⟨htop, hch⟩ p n' hp
    cases p with
    | nil => cases hp; exact htop
    | cons k ks =>
      rw [nodeAt_cons] at hp
      cases hk : alistGet n.children k with
      | none => rw [hk] at hp; cases hp
      | some m =>
        rw [hk] at hp
        exact hch k m hk ks n' hp

theorem decOk_iff (b : Bool) (n : TrieNode) :
    DecOk b n ↔
      ((∀ k m, alistGet n.children k = some m → m.rc ≠ [] →
          (b = true ∨ 1 < n.children.length)) ∧
       ∀ k m, alistGet n.children k = some m → DecOk false m) := by
  constructor
  · intro h
    constructor
    · intro k m hk hm
      rcases h [] n k m rfl hk hm with ⟨_, hb⟩ | hlen
      · exact Or.inl hb
      · exact Or.inr hlen
    · intro k m hk p n' k' m' hp hk' hm'
      rcases h (k :: p) n' k' m' (by simp [nodeAt_cons, hk, hp]) hk' hm' with ⟨hp0, _⟩ | hlen
      · cases hp0
      · exact Or.inr hlen
  · rintro ⟨htop, hch⟩ p n' k m hp hk hm
    cases p with
    | nil =>
      cases hp
      rcases htop k m hk hm with hb | hlen
      · exact Or.inl ⟨rfl, hb⟩
      · exact Or.inr hlen
    | cons k0 ks =>
      rw [nodeAt_cons] at hp
      cases hk0 : alistGet n.children k0 with
      | none => rw [hk0] at hp; cases hp
      | some m0 =>
        rw [hk0] at hp
        rcases hch k0 m0 hk0 ks n' k m hp hk hm with ⟨_, hb⟩ | hlen
        · cases hb
        · exact Or.inr hlen

theorem suggOk_init (ms : Int) (h : 0 ≤ ms) (l : Key) : SuggOk ms (TrieNode.init l) := by
  rw [suggOk_iff]
  refine ⟨by simpa using generate_suggestions_nil ms h, fun k m hk => ?_⟩
  simp [alistGet] at hk

theorem flagOk_init (l : Key) : FlagOk (TrieNode.init l) := by
  rw [flagOk_iff]
  refine ⟨by simp, fun k m hk => ?_⟩
  simp [alistGet] at hk

theorem decOk_init (b : Bool) (l : Key) : DecOk b (TrieNode.init l) := by
  intro p n k m hp hk hm
  cases p with
  | nil =>
    cases hp
    simp [alistGet] at hk
  | cons k0 ks =>
    rw [nodeAt_cons] at hp
    simp only [TrieNode.init_children, alistGet] at hp
    cases hp

/-- Replacing a node's `rc`/`suggestions` with a consistent pair keeps
`SuggOk` (the subtree is untouched). -/
theorem suggOk_setRcSugg (ms : Int) (n : TrieNode) (d : Dict) (s : List Key)
    (hn : SuggOk ms n) (hds : generate_suggestions d (.int ms) = .ok s) :
    SuggOk ms (n.setRcSugg d s) := by
  rw [suggOk_iff] at hn ⊢
  exact ⟨by simpa using hds, by simpa using hn.2⟩

theorem flagOk_setRcSugg (n : TrieNode) (d : Dict) (s : List Key) (hn : FlagOk n) :
    FlagOk (n.setRcSugg d s) := by
  rw [flagOk_iff] at hn ⊢
  exact ⟨by simpa using hn.1, by simpa using hn.2⟩

theorem decOk_setRcSugg (b : Bool) (n : TrieNode) (d : Dict) (s : List Key) (hn : DecOk b n) :
    DecOk b (n.setRcSugg d s) := by
  rw [decOk_iff] at hn ⊢
  exact ⟨by simpa using hn.1, by simpa using hn.2⟩

/-- Lemma: `setRcSugg` does not change the shape of the subtree. -/
theorem nodeAt_setRcSugg_isSome (n : TrieNode) (d : Dict) (s : List Key) (q : List Key) :
    (nodeAt (n.setRcSugg d s) q).isSome = (nodeAt n q).isSome := by
  cases q with
  | nil => simp
  | cons k ks => simp [nodeAt_cons]

/-- Restriction of `SuggOk` to a child subtree. -/
theorem suggOk_child (ms : Int) (n m : TrieNode) (k : Key)
    (hn : SuggOk ms n) (hk : alistGet n.children k = some m) : SuggOk ms m :=
  ((suggOk_iff ms n).1 hn).2 k m hk

theorem flagOk_child (n m : TrieNode) (k : Key)
    (hn : FlagOk n) (hk : alistGet n.children k = some m) : FlagOk m :=
  ((flagOk_iff n).1 hn).2 k m hk

theorem decOk_child (b : Bool) (n m : TrieNode) (k : Key)
    (hn : DecOk b n) (hk : alistGet n.children k = some m) : DecOk false m :=
  ((decOk_iff b n).1 hn).2 k m hk

theorem nil_mem_prefixesOf (l : List Key) : [] ∈ prefixesOf l := by
  cases l <;> simp [prefixesOf]

theorem cons_mem_prefixesOf (x c : Key) (q : List Key) (rest : List Key) :
    (x :: q ∈ prefixesOf (c :: rest)) ↔ (x = c ∧ q ∈ prefixesOf rest) := by
  simp only [prefixesOf, List.mem_cons, List.mem_map]
  constructor
  · rintro (h | ⟨a, ha, he⟩)
    · cases h
    · cases he
      exact ⟨rfl, ha⟩
  · rintro ⟨rfl, hq⟩
    exact Or.inr ⟨q, hq, rfl⟩
/-! ## Behaviour of the insertion phases -/

@[simp] theorem exceptBind_ok {ε α β : Type} (a : α) (f : α → Except ε β) :
    (Except.ok a >>= f : Except ε β) = f a := rfl

@[simp] theorem exceptBind_error {ε α β : Type} (e : ε) (f : α → Except ε β) :
    ((Except.error e : Except ε α) >>= f : Except ε β) = .error e := rfl

@[simp] theorem exceptPure {ε α : Type} (a : α) : (pure a : Except ε α) = .ok a := rfl

theorem store_substring_ok (mw : Nat) (label inserted : Key) (snap1 : Option Dict)
    (h : label = [' '] → snap1 ≠ none) :
    ∃ subO, store_substring mw label inserted snap1 = .ok subO := by
  by_cases hl : label = [' ']
  · rcases Option.ne_none_iff_exists'.1 (h hl) with ⟨d, hd⟩
    by_cases hlen : (splitSp (pyStrip inserted)).length < mw
    · exact ⟨none, by simp [store_substring, hl, hlen]⟩
    · refine ⟨some (pyStrip inserted,
        if dictMem d (pyStrip inserted) then 1 else dictSum d), ?_⟩
      simp [store_substring, hl, hlen, hd]
  · exact ⟨none, by simp [store_substring, hl]⟩

theorem store_single_child_spec (ms : Int) (response : Key) (isRoot : Bool)
    (snap1 : Option Dict) (child : TrieNode) (hms : 0 ≤ ms)
    (h : isRoot = false → ∃ d, snap1 = some d ∧ dictMem d response = true) :
    ∃ child', store_single_child (.int ms) response isRoot snap1 child = .ok child' ∧
      (child' = child ∨ ∃ d1 s, isRoot = false ∧ child' = child.setRcSugg d1 s ∧
        generate_suggestions d1 (.int ms) = .ok s) := by
  cases isRoot with
  | true => exact ⟨child, by simp [store_single_child], Or.inl rfl⟩
  | false =>
    obtain ⟨d, hd, hmem⟩ := h rfl
    obtain ⟨d1, hd1⟩ := dictDel_ok d response hmem
    refine ⟨child.setRcSugg d1 ((sortKeysDesc d1 (d1.map (·.1))).take ms.toNat), ?_, ?_⟩
    · simp [store_single_child, hd, hd1, generate_suggestions_int d1 ms hms]
    · exact Or.inr ⟨d1, _, rfl, rfl, generate_suggestions_int d1 ms hms⟩

theorem ensure_child_spec (ms : Int) (response : Key) (isRoot : Bool) (snap1 : Option Dict)
    (current : TrieNode) (c : Key) (hms : 0 ≤ ms)
    (hSnapB : isRoot = false → ∃ d, snap1 = some d ∧ dictMem d response = true) :
    ∃ current1, ensure_child (.int ms) response isRoot snap1 current c = .ok current1 ∧
      current1.label = current.label ∧ current1.rc = current.rc ∧
      current1.suggestions = current.suggestions ∧
      ((current.children = [] ∧ current1.children = [(c, TrieNode.init c)] ∧
        current1.hasSingleChild = current.hasSingleChild) ∨
       (current1 = current ∧ (alistGet current.children c).isSome = true) ∨
       (current1.hasSingleChild = false ∧ alistGet current.children c = none ∧
        current.children ≠ [] ∧
        current1.children.length = current.children.length + 1 ∧
        alistGet current1.children c = some (TrieNode.init c) ∧
        (∀ k, k ≠ c → alistGet current1.children k = alistGet current.children k ∨
          ∃ m d1 s, isRoot = false ∧ alistGet current.children k = some m ∧
            alistGet current1.children k = some (m.setRcSugg d1 s) ∧
            generate_suggestions d1 (.int ms) = .ok s))) := by
  by_cases hemp : current.children = []
  · refine ⟨current.setChildren (alistSet current.children c (TrieNode.init c)),
      ?_, by simp, by simp, by simp, Or.inl ⟨hemp, by simp [hemp, alistSet], by simp⟩⟩
    simp only [ensure_child]
    rw [hemp]
  · obtain ⟨k0, ch0, tl, hch⟩ : ∃ k0 ch0 tl, current.children = (k0, ch0) :: tl := by
      rcases hx : current.children with _ | ⟨⟨a, b⟩, tl⟩
      · exact absurd hx hemp
      · exact ⟨a, b, tl, rfl⟩
    by_cases hg : (alistGet current.children c).isSome
    · refine ⟨current, ?_, rfl, rfl, rfl, Or.inr (Or.inl ⟨rfl, hg⟩)⟩
      simp only [ensure_child]
      rw [hch]
      simp [← hch, hg]
    · have hgn : alistGet current.children c = none := by
        cases hx : alistGet current.children c with
        | none => rfl
        | some m => rw [hx] at hg; simp at hg
      have hck0 : ¬c = k0 := by
        intro he
        rw [hch] at hgn
        simp [alistGet, he] at hgn
      have hk0get : alistGet current.children k0 = some ch0 := by
        rw [hch]; simp [alistGet]
      cases hfl : current.hasSingleChild with
      | false =>
        refine ⟨(current.setChildren (alistSet current.children c
            (TrieNode.init c))).setFlag false, ?_, by simp, by simp, by simp,
          Or.inr (Or.inr ⟨by simp, hgn, hemp, ?_, ?_, ?_⟩)⟩
        · simp only [ensure_child]
          rw [hch]
          simp only [← hch, hg, Bool.false_eq_true, if_false]
          simp [create_new_branch, hfl]
        · simp [alistSet_length_of_new current.children c _ hgn]
        · simp [alistGet_set]
        · intro k hk
          exact Or.inl (by simp [alistGet_set, hk])
      | true =>
        obtain ⟨ch0', hstore, hshape⟩ :=
          store_single_child_spec ms response isRoot snap1 ch0 hms hSnapB
        have hmidchildren :
            (current.setChildren (alistSet current.children k0 ch0')).children =
              alistSet current.children k0 ch0' := by simp
        have hmidc : alistGet (alistSet current.children k0 ch0') c = none := by
          simp [alistGet_set, hck0, hgn]
        refine ⟨((current.setChildren (alistSet current.children k0 ch0')).setChildren
            (alistSet (alistSet current.children k0 ch0') c (TrieNode.init c))).setFlag false,
          ?_, by simp, by simp, by simp,
          Or.inr (Or.inr ⟨by simp, hgn, hemp, ?_, ?_, ?_⟩)⟩
        · simp only [ensure_child]
          rw [hch]
          simp only [← hch, hg, Bool.false_eq_true, if_false]
          simp only [create_new_branch, hfl, if_pos rfl]
          rw [hch]
          simp only [hstore, exceptBind_ok]
          simp [← hch]
        · have h1 : (alistSet current.children k0 ch0').length =
              current.children.length := by
            apply alistSet_length_of_mem
            simp [hk0get]
          simp [alistSet_length_of_new _ c _ hmidc, h1]
        · simp [alistGet_set]
        · intro k hk
          by_cases hkk0 : k = k0
          · subst hkk0
            rcases hshape with he | ⟨d1, s, hIRf, he, hgen⟩
            · refine Or.inl ?_
              simp [alistGet_set, hk, he, hk0get]
            · refine Or.inr ⟨ch0, d1, s, hIRf, hk0get, ?_, hgen⟩
              simp [alistGet_set, hk, he]
          · refine Or.inl ?_
            simp [alistGet_set, hk, hkk0]

theorem decision_step_spec (ms : Int) (mw : Nat) (response : Key) (isRoot : Bool)
    (current1 : TrieNode) (inserted : Key) (snap1 : Option Dict) (next : TrieNode)
    (hms : 0 ≤ ms)
    (hLab : isRoot = true → current1.label = ['/'])
    (hSnap1 : isRoot = false → snap1 ≠ none) :
    ∃ next1 subO,
      decision_step (.int ms) mw response isRoot current1 inserted snap1 next =
        .ok (next1, subO) ∧
      (((isRoot || !current1.hasSingleChild) = true ∧
        next1.label = next.label ∧ next1.children = next.children ∧
        next1.hasSingleChild = next.hasSingleChild ∧
        next1.rc = dictAdd next.rc response 1 ∧
        generate_suggestions next1.rc (.int ms) = .ok next1.suggestions) ∨
       ((isRoot || !current1.hasSingleChild) = false ∧ next1 = next ∧ subO = none)) := by
  cases hdec : isRoot || !current1.hasSingleChild with
  | false =>
    exact ⟨next, none, by simp [decision_step, hdec], Or.inr ⟨rfl, rfl, rfl⟩⟩
  | true =>
    have hsnap : current1.label = [' '] → snap1 ≠ none := by
      intro hl
      cases isRoot with
      | true =>
        have := hLab rfl
        rw [hl] at this
        simp [List.cons.injEq] at this
      | false => exact hSnap1 rfl
    obtain ⟨subO, hsub⟩ := store_substring_ok mw current1.label inserted snap1 hsnap
    refine ⟨next.setRcSugg (dictAdd next.rc response 1)
        ((sortKeysDesc (dictAdd next.rc response 1)
          ((dictAdd next.rc response 1).map (·.1))).take ms.toNat), subO, ?_, Or.inl ?_⟩
    · simp [decision_step, hdec, hsub, generate_suggestions_int _ ms hms]
    · refine ⟨rfl, by simp, by simp, by simp, by simp, ?_⟩
      simp [generate_suggestions_int _ ms hms]

theorem TrieNode.ext (a b : TrieNode)
    (h1 : a.label = b.label) (h2 : a.children = b.children)
    (h3 : a.hasSingleChild = b.hasSingleChild) (h4 : a.rc = b.rc)
    (h5 : a.suggestions = b.suggestions) : a = b := by
  cases a
  cases b
  simp only [TrieNode.label_mk, TrieNode.children_mk, TrieNode.flag_mk, TrieNode.rc_mk,
    TrieNode.suggestions_mk] at h1 h2 h3 h4 h5
  rw [h1, h2, h3, h4, h5]

theorem nodeAt_isSome_congr (a b : TrieNode) (h : a.children = b.children) (q : List Key) :
    (nodeAt a q).isSome = (nodeAt b q).isSome := by
  cases q with
  | nil => simp
  | cons k ks => simp [nodeAt_cons, h]

theorem nodeAt_cons_some (n m : TrieNode) (k : Key) (ks : List Key)
    (h : alistGet n.children k = some m) : nodeAt n (k :: ks) = nodeAt m ks := by
  rw [nodeAt_cons, h]

theorem nodeAt_cons_none (n : TrieNode) (k : Key) (ks : List Key)
    (h : alistGet n.children k = none) : nodeAt n (k :: ks) = none := by
  rw [nodeAt_cons, h]

/-- Master lemma for the insertion walk: with a non-negative integer limit
and a well-formed traversal state, `trieGo` runs without raising, preserves
the tree invariants, and adds exactly the prefixes of the remaining label
list as new paths. -/
theorem trieGo_spec (ms : Int) (mw : Nat) (response : Key) (hms : 0 ≤ ms) :
    ∀ (chars : List Key) (isRoot : Bool) (current : TrieNode) (snap : Option Dict)
      (inserted : Key),
      SuggOk ms current → FlagOk current → DecOk isRoot current →
      (∀ d, snap = some d → dictMem d response = true) →
      (current.rc ≠ [] → dictMem current.rc response = true) →
      (isRoot = false → snap ≠ none ∨ current.rc ≠ []) →
      (isRoot = true → current.rc = [] ∧ current.label = ['/']) →
      ∃ node' subs,
        trieGo (.int ms) mw response isRoot current snap inserted chars = .ok (node', subs) ∧
        node'.label = current.label ∧
        (node'.rc = [] ↔ current.rc = []) ∧
        SuggOk ms node' ∧ FlagOk node' ∧ DecOk isRoot node' ∧
        (∀ q, (nodeAt node' q).isSome =
          ((nodeAt current q).isSome || decide (q ∈ prefixesOf chars))) := by
  intro chars
  induction chars with
  | nil =>
    intro isRoot current snap inserted hSugg hFlag hDec _ _ _ _
    refine ⟨current, [], rfl, rfl, Iff.rfl, hSugg, hFlag, hDec, fun q => ?_⟩
    cases q with
    | nil => simp [prefixesOf]
    | cons k ks => simp [prefixesOf]
  | cons c rest ih =>
    intro isRoot current snap inserted hSugg hFlag hDec hSnapMem hCurMem hNR hRoot
    set snap1 : Option Dict := if current.rc.isEmpty then snap else some current.rc
      with hsnap1def
    have hsnap1mem : ∀ d, snap1 = some d → dictMem d response = true := by
      intro d hd
      rw [hsnap1def] at hd
      by_cases h0 : current.rc = []
      · rw [if_pos (by simp [h0])] at hd
        exact hSnapMem d hd
      · rw [if_neg (by simp [h0])] at hd
        cases hd
        exact hCurMem h0
    have hsnap1ne : isRoot = false → snap1 ≠ none := by
      intro h
      rcases hNR h with hs | hrc
      · by_cases h0 : current.rc = []
        · rw [hsnap1def, if_pos (by simp [h0])]
          exact hs
        · rw [hsnap1def, if_neg (by simp [h0])]
          simp
      · rw [hsnap1def, if_neg (by simp [hrc])]
        simp
    have hsnapB : isRoot = false → ∃ d, snap1 = some d ∧ dictMem d response = true := by
      intro h
      rcases Option.ne_none_iff_exists'.1 (hsnap1ne h) with ⟨d, hd⟩
      exact ⟨d, hd, hsnap1mem d hd⟩
    obtain ⟨current1, hE, hlab1, hrc1, hsugg1, hcase⟩ :=
      ensure_child_spec ms response isRoot snap1 current c hms hsnapB
    obtain ⟨next, hnext, hnshape⟩ : ∃ next, alistGet current1.children c = some next ∧
        (alistGet current.children c = some next ∨
         (alistGet current.children c = none ∧ next = TrieNode.init c)) := by
      rcases hcase with ⟨hemp, hch1, _⟩ | ⟨heq, hsome⟩ | ⟨_, hnone, _, _, hgetc, _⟩
      · exact ⟨TrieNode.init c, by simp [hch1, alistGet],
          Or.inr ⟨by simp [hemp, alistGet], rfl⟩⟩
      · obtain ⟨m, hm⟩ := Option.isSome_iff_exists.1 hsome
        exact ⟨m, heq ▸ hm, Or.inl hm⟩
      · exact ⟨TrieNode.init c, hgetc, Or.inr ⟨hnone, rfl⟩⟩
    have hnextSugg : SuggOk ms next := by
      rcases hnshape with hm | ⟨_, he⟩
      · exact suggOk_child ms current next c hSugg hm
      · rw [he]
        exact suggOk_init ms hms c
    have hnextFlag : FlagOk next := by
      rcases hnshape with hm | ⟨_, he⟩
      · exact flagOk_child current next c hFlag hm
      · rw [he]
        exact flagOk_init c
    have hnextDec : DecOk false next := by
      rcases hnshape with hm | ⟨_, he⟩
      · exact decOk_child isRoot current next c hDec hm
      · rw [he]
        exact decOk_init false c
    have hflag1iff : current1.hasSingleChild = true ↔ current1.children.length ≤ 1 := by
      rcases hcase with ⟨hemp, hch1, hfl1⟩ | ⟨heq, _⟩ | ⟨hfl1, _, hne, hlen1, _, _⟩
      · have hone : current.hasSingleChild = true := by
          rw [hFlag [] current rfl, hemp]
          simp
        rw [hfl1, hch1, hone]
        simp
      · rw [heq]
        exact hFlag [] current rfl
      · have hpos : 0 < current.children.length := List.length_pos.2 hne
        rw [hfl1, hlen1]
        constructor
        · intro h
          cases h
        · intro h
          omega
    obtain ⟨next1, subO, hD, hDcase⟩ :=
      decision_step_spec ms mw response isRoot current1 inserted snap1 next hms
        (fun h => hlab1.trans (hRoot h).2) hsnap1ne
    have hU : SuggOk ms next1 ∧ FlagOk next1 ∧ DecOk false next1 ∧
        (next1.rc ≠ [] → dictMem next1.rc response = true) ∧
        (snap1 ≠ none ∨ next1.rc ≠ []) ∧
        next1.children = next.children ∧
        (next1.rc ≠ [] → (isRoot = true ∨ 1 < current1.children.length)) := by
      rcases hDcase with ⟨hcond, hl, hch, hf, hrc, hcons⟩ | ⟨hcond, he1, _⟩
      · have heta : next1 = next.setRcSugg next1.rc next1.suggestions := by
          apply TrieNode.ext
          · simpa using hl
          · simpa using hch
          · simpa using hf
          · simp
          · simp
        have hrcne : next1.rc ≠ [] := by
          rw [hrc]
          exact dictAdd_ne_nil _ _ _
        refine ⟨?_, ?_, ?_, ?_, ?_, hch, ?_⟩
        · rw [heta]
          exact suggOk_setRcSugg ms next _ _ hnextSugg (heta ▸ hcons)
        · rw [heta]
          exact flagOk_setRcSugg next _ _ hnextFlag
        · rw [heta]
          exact decOk_setRcSugg false next _ _ hnextDec
        · intro _
          rw [hrc]
          exact dictAdd_mem _ _ _
        · cases hIR : isRoot with
          | false => exact Or.inl (hsnap1ne hIR)
          | true => exact Or.inr hrcne
        · intro _
          cases hIR : isRoot with
          | true => exact Or.inl rfl
          | false =>
            rw [hIR] at hcond
            simp only [Bool.false_or, Bool.not_eq_true'] at hcond
            refine Or.inr ?_
            have hiff := hflag1iff
            rw [hcond] at hiff
            have hnot : ¬current1.children.length ≤ 1 := fun hle => by
              have hx := hiff.2 hle
              cases hx
            omega
      · -- non-decision transition: no counts are written at the destination
        have hIR : isRoot = false := by
          cases hIR : isRoot with
          | false => rfl
          | true => rw [hIR] at hcond; simp at hcond
        have hfl1 : current1.hasSingleChild = true := by
          rw [hIR] at hcond
          simp only [Bool.false_or, Bool.not_eq_false'] at hcond
          exact hcond
        have hnextrc : next.rc = [] := by
          rcases hnshape with hm | ⟨_, he⟩
          · rcases hcase with ⟨hemp, _, _⟩ | ⟨heq, _⟩ | ⟨hfl3, _, _, _, _, _⟩
            · rw [hemp] at hm
              simp [alistGet] at hm
            · rw [heq] at hfl1
              by_contra hne
              rcases ((decOk_iff isRoot current).1 hDec).1 c next hm hne with hb | hlen
              · rw [hIR] at hb
                cases hb
              · have hle := (hFlag [] current rfl).1 hfl1
                omega
            · rw [hfl3] at hfl1
              cases hfl1
          · rw [he]
            rfl
        rw [he1]
        refine ⟨hnextSugg, hnextFlag, hnextDec, ?_, Or.inl (hsnap1ne hIR), rfl, ?_⟩
        · intro h
          exact absurd hnextrc h
        · intro h
          exact absurd hnextrc h
    obtain ⟨hSuggN1, hFlagN1, hDecN1, hMemN1, hOrN1, hChN1, hLenN1⟩ := hU
    obtain ⟨next2, subsBelow, hrec, hlab2, hrciff2, hSugg2, hFlag2, hDec2, hpath2⟩ :=
      ih false next1 snap1 (inserted ++ c) hSuggN1 hFlagN1 hDecN1 hsnap1mem hMemN1
        (fun _ => hOrN1) (fun h => nomatch h)
    obtain ⟨current2, hC2, hc2label, hc2children, hc2flag, hc2rcne, hc2rcnil, hc2top⟩ :
        ∃ current2,
          (if current.rc.isEmpty then Except.ok current1
           else applySubs (.int ms) current1 subsBelow) = .ok current2 ∧
          current2.label = current1.label ∧
          current2.children = current1.children ∧
          current2.hasSingleChild = current1.hasSingleChild ∧
          (current.rc ≠ [] → current2.rc ≠ []) ∧
          (current.rc = [] → current2.rc = []) ∧
          generate_suggestions current2.rc (.int ms) = .ok current2.suggestions := by
      have htop1 : generate_suggestions current1.rc (.int ms) = .ok current1.suggestions := by
        rw [hrc1, hsugg1]
        exact hSugg [] current rfl
      by_cases hrc0 : current.rc = []
      · refine ⟨current1, by rw [if_pos (by simp [hrc0])], rfl, rfl, rfl,
          fun h => absurd hrc0 h, fun _ => ?_, htop1⟩
        rw [hrc1, hrc0]
      · obtain ⟨m, hm, hml, hmch, hmf, hmne, hmtop⟩ := applySubs_ok ms hms subsBelow current1 htop1
        refine ⟨m, by rw [if_neg (by simp [hrc0])]; exact hm, hml, hmch, hmf, fun _ => ?_,
          fun h => absurd h hrc0, hmtop⟩
        apply hmne
        rw [hrc1]
        exact hrc0
    have hnextC2 : alistGet current2.children c = some next := by
      rw [hc2children]
      exact hnext
    have hlen3 : (alistSet current2.children c next2).length = current1.children.length := by
      rw [alistSet_length_of_mem current2.children c next2 (by rw [hnextC2]; rfl), hc2children]
    refine ⟨current2.setChildren (alistSet current2.children c next2),
      subO.toList ++ subsBelow, ?_, ?_, ?_, ?_, ?_, ?_, ?_⟩
    · -- the computation itself
      simp only [trieGo]
      rw [← hsnap1def]
      simp only [hE, exceptBind_ok, hnext, hD, hrec]
      by_cases hrc0 : List.isEmpty current.rc = true
      · rw [if_pos hrc0] at hC2 ⊢
        injection hC2 with h2
        rw [h2]
      · rw [if_neg hrc0] at hC2 ⊢
        rw [hC2]
        simp only [exceptBind_ok]
    · simp [hc2label, hlab1]
    · constructor
      · intro h
        by_contra hne
        exact (hc2rcne hne) (by simpa using h)
      · intro h
        simpa using hc2rcnil h
    · -- SuggOk
      rw [suggOk_iff]
      constructor
      · simpa using hc2top
      · intro k m hk
        simp only [TrieNode.setChildren_children] at hk
        rw [alistGet_set] at hk
        by_cases hkc : k = c
        · rw [if_pos hkc] at hk
          cases hk
          exact hSugg2
        · rw [if_neg hkc] at hk
          rw [hc2children] at hk
          rcases hcase with ⟨hemp, hch1, _⟩ | ⟨heq, _⟩ | ⟨_, _, _, _, _, hothers⟩
          · rw [hch1] at hk
            simp [alistGet, hkc] at hk
          · rw [heq] at hk
            exact suggOk_child ms current m k hSugg hk
          · rcases hothers k hkc with he | ⟨m0, d1, s, _, hm0, hm1, hgen⟩
            · rw [he] at hk
              exact suggOk_child ms current m k hSugg hk
            · rw [hm1] at hk
              cases hk
              exact suggOk_setRcSugg ms m0 d1 s (suggOk_child ms current m0 k hSugg hm0) hgen
    · -- FlagOk
      rw [flagOk_iff]
      constructor
      · simp only [TrieNode.setChildren_flag, TrieNode.setChildren_children, hlen3, hc2flag]
        exact hflag1iff
      · intro k m hk
        simp only [TrieNode.setChildren_children] at hk
        rw [alistGet_set] at hk
        by_cases hkc : k = c
        · rw [if_pos hkc] at hk
          cases hk
          exact hFlag2
        · rw [if_neg hkc] at hk
          rw [hc2children] at hk
          rcases hcase with ⟨hemp, hch1, _⟩ | ⟨heq, _⟩ | ⟨_, _, _, _, _, hothers⟩
          · rw [hch1] at hk
            simp [alistGet, hkc] at hk
          · rw [heq] at hk
            exact flagOk_child current m k hFlag hk
          · rcases hothers k hkc with he | ⟨m0, d1, s, _, hm0, hm1, hgen⟩
            · rw [he] at hk
              exact flagOk_child current m k hFlag hk
            · rw [hm1] at hk
              cases hk
              exact flagOk_setRcSugg m0 d1 s (flagOk_child current m0 k hFlag hm0)
    · -- DecOk
      rw [decOk_iff]
      constructor
      · intro k m hk hmrc
        simp only [TrieNode.setChildren_children] at hk ⊢
        rw [alistGet_set] at hk
        rw [hlen3]
        by_cases hkc : k = c
        · rw [if_pos hkc] at hk
          cases hk
          have hrcN1 : next1.rc ≠ [] := fun h => hmrc (hrciff2.2 h)
          exact hLenN1 hrcN1
        · rw [if_neg hkc] at hk
          rw [hc2children] at hk
          rcases hcase with ⟨hemp, hch1, _⟩ | ⟨heq, _⟩ | ⟨_, _, hne, hlen1, _, _⟩
          · rw [hch1] at hk
            simp [alistGet, hkc] at hk
          · rw [heq] at hk
            rw [heq]
            rcases ((decOk_iff isRoot current).1 hDec).1 k m hk hmrc with hb | hlen
            · exact Or.inl hb
            · exact Or.inr hlen
          · have hpos : 0 < current.children.length := List.length_pos.2 hne
            rw [hlen1]
            exact Or.inr (by omega)
      · intro k m hk
        simp only [TrieNode.setChildren_children] at hk
        rw [alistGet_set] at hk
        by_cases hkc : k = c
        · rw [if_pos hkc] at hk
          cases hk
          exact hDec2
        · rw [if_neg hkc] at hk
          rw [hc2children] at hk
          rcases hcase with ⟨hemp, hch1, _⟩ | ⟨heq, _⟩ | ⟨_, _, _, _, _, hothers⟩
          · rw [hch1] at hk
            simp [alistGet, hkc] at hk
          · rw [heq] at hk
            exact decOk_child isRoot current m k hDec hk
          · rcases hothers k hkc with he | ⟨m0, d1, s, _, hm0, hm1, hgen⟩
            · rw [he] at hk
              exact decOk_child isRoot current m k hDec hk
            · rw [hm1] at hk
              cases hk
              exact decOk_setRcSugg false m0 d1 s (decOk_child isRoot current m0 k hDec hm0)
    · -- path extension
      intro q
      cases q with
      | nil => simp [nil_mem_prefixesOf]
      | cons k q' =>
        by_cases hkc : k = c
        · subst hkc
          have hL : nodeAt (current2.setChildren (alistSet current2.children k next2))
              (k :: q') = nodeAt next2 q' := by
            apply nodeAt_cons_some
            simp only [TrieNode.setChildren_children]
            rw [alistGet_set, if_pos rfl]
          rw [hL]
          have hrw : decide (k :: q' ∈ prefixesOf (k :: rest)) =
              decide (q' ∈ prefixesOf rest) := by
            apply decide_eq_decide.2
            constructor
            · intro h
              exact ((cons_mem_prefixesOf k k q' rest).1 h).2
            · intro h
              exact (cons_mem_prefixesOf k k q' rest).2 ⟨rfl, h⟩
          rw [hrw]
          have hstep : (nodeAt next2 q').isSome =
              ((nodeAt next q').isSome || decide (q' ∈ prefixesOf rest)) := by
            rw [hpath2 q', nodeAt_isSome_congr next1 next hChN1 q']
          rcases hnshape with hm | ⟨hnone, he⟩
          · rw [hstep, nodeAt_cons_some current next k q' hm]
          · rw [hstep, nodeAt_cons_none current k q' hnone, he]
            cases q' with
            | nil => simp [nil_mem_prefixesOf]
            | cons k2 q2 =>
              rw [nodeAt_cons_none (TrieNode.init k) k2 q2 rfl]
        · have hrw : decide (k :: q' ∈ prefixesOf (c :: rest)) = false := by
            apply decide_eq_false
            intro h
            exact hkc ((cons_mem_prefixesOf k c q' rest).1 h).1
          rw [hrw, Bool.or_false]
          cases hother : alistGet current1.children k with
          | none =>
            have hL : nodeAt (current2.setChildren (alistSet current2.children c next2))
                (k :: q') = none := by
              apply nodeAt_cons_none
              simp only [TrieNode.setChildren_children]
              rw [alistGet_set, if_neg hkc, hc2children]
              exact hother
            have hcn : alistGet current.children k = none := by
              rcases hcase with ⟨hemp, _, _⟩ | ⟨heq, _⟩ | ⟨_, _, _, _, _, hothers⟩
              · rw [hemp]
                rfl
              · rw [← heq]
                exact hother
              · rcases hothers k hkc with he | ⟨m0, d1, s, _, hm0, hm1, hgen⟩
                · rw [← he]
                  exact hother
                · rw [hother] at hm1
                  cases hm1
            rw [hL, nodeAt_cons_none current k q' hcn]
          | some m1 =>
            have hL : nodeAt (current2.setChildren (alistSet current2.children c next2))
                (k :: q') = nodeAt m1 q' := by
              apply nodeAt_cons_some
              simp only [TrieNode.setChildren_children]
              rw [alistGet_set, if_neg hkc, hc2children]
              exact hother
            rw [hL]
            rcases hcase with ⟨hemp, hch1, _⟩ | ⟨heq, _⟩ | ⟨_, _, _, _, _, hothers⟩
            · rw [hch1] at hother
              simp [alistGet, hkc] at hother
            · rw [heq] at hother
              rw [nodeAt_cons_some current m1 k q' hother]
            · rcases hothers k hkc with he | ⟨m0, d1, s, _, hm0, hm1, hgen⟩
              · rw [he] at hother
                rw [nodeAt_cons_some current m1 k q' hother]
              · rw [hother] at hm1
                cases hm1
                rw [nodeAt_cons_some current m0 k q' hm0]
                exact nodeAt_isSome_congr (m0.setRcSugg d1 s) m0 (by simp) q'

theorem trieInv_init (ms : Int) (hms : 0 ≤ ms) (mw : Nat) :
    TrieInv ms (Trie.init (.int ms) mw) := by
  refine ⟨rfl, hms, rfl, rfl, ?_, ?_, ?_⟩
  · exact suggOk_init ms hms ['/']
  · exact flagOk_init ['/']
  · exact decOk_init true ['/']

/-- One insertion on a well-formed trie runs to completion, preserves the
invariant, and adds exactly the prefix paths of the response. -/
theorem insert_response_spec (ms : Int) (t : Trie) (r : Key) (h : TrieInv ms t) :
    ∃ t', insert_response t r = .ok t' ∧ TrieInv ms t' ∧
      t'.maxSuggestions = t.maxSuggestions ∧ t'.minWords = t.minWords ∧
      (∀ q, (nodeAt t'.root q).isSome =
        ((nodeAt t.root q).isSome || decide (q ∈ prefixesOf (labelsOf r)))) := by
  obtain ⟨hcfg, hms, hlab, hrc, hSugg, hFlag, hDec⟩ := h
  obtain ⟨node', subs, heq, hlab', hrciff, hSugg', hFlag', hDec', hpath⟩ :=
    trieGo_spec ms t.minWords r hms (labelsOf r) true t.root none []
      hSugg hFlag hDec (fun d hd => nomatch hd) (fun hne => absurd hrc hne)
      (fun hx => nomatch hx) (fun _ => ⟨hrc, hlab⟩)
  refine ⟨{ t with root := node' }, ?_, ⟨hcfg, hms, ?_, ?_, hSugg', hFlag', hDec'⟩,
    rfl, rfl, hpath⟩
  · simp only [insert_response, hcfg, labelsOf] at *
    rw [heq]
    rfl
  · rw [hlab', hlab]
  · exact hrciff.2 hrc

/-- Inserting any list of responses on a well-formed trie succeeds,
preserves the invariant, and the reachable paths are exactly the old ones
plus the prefix paths of the inserted responses. -/
theorem insertList_spec (ms : Int) (rs : List Key) :
    ∀ t : Trie, TrieInv ms t →
    ∃ t', insertList t rs = .ok t' ∧ TrieInv ms t' ∧
      t'.maxSuggestions = t.maxSuggestions ∧ t'.minWords = t.minWords ∧
      (∀ q, ((nodeAt t'.root q).isSome = true ↔
        ((nodeAt t.root q).isSome = true ∨ ∃ r ∈ rs, q ∈ prefixesOf (labelsOf r)))) := by
  induction rs with
  | nil =>
    intro t h
    refine ⟨t, rfl, h, rfl, rfl, fun q => ?_⟩
    simp
  | cons r rs ih =>
    intro t h
    obtain ⟨t1, h1eq, h1inv, h1ms, h1mw, h1path⟩ := insert_response_spec ms t r h
    obtain ⟨t', heq, hinv, hms', hmw', hpath⟩ := ih t1 h1inv
    refine ⟨t', ?_, hinv, hms'.trans h1ms, hmw'.trans h1mw, fun q => ?_⟩
    · simp only [insertList, h1eq, exceptBind_ok]
      exact heq
    · rw [hpath q]
      have hq := h1path q
      constructor
      · rintro (hx | ⟨r', hr', hq'⟩)
        · rw [hq] at hx
          rcases Bool.or_eq_true_iff.1 hx with hy | hy
          · exact Or.inl hy
          · exact Or.inr ⟨r, List.mem_cons_self r rs, of_decide_eq_true hy⟩
        · exact Or.inr ⟨r', List.mem_cons_of_mem r hr', hq'⟩
      · rintro (hx | ⟨r', hr', hq'⟩)
        · refine Or.inl ?_
          rw [hq]
          exact Bool.or_eq_true_iff.2 (Or.inl hx)
        · rcases List.mem_cons.1 hr' with he | hmem
          · refine Or.inl ?_
            rw [hq]
            refine Bool.or_eq_true_iff.2 (Or.inr ?_)
            rw [he] at hq'
            exact decide_eq_true hq'
          · exact Or.inr ⟨r', hmem, hq'⟩

/-! ## Query-side lemmas -/

theorem genGo_mismatch (pre : List Char) :
    ∀ (cur n : TrieNode) (acc : List Key) (ch : Char) (suf : List Char),
      nodeAt cur (labelsQ pre) = some n →
      alistGet n.children [ch] = none →
      genGo cur acc (pre ++ ch :: suf) = [] := by
  induction pre with
  | nil =>
    intro cur n acc ch suf hn hch
    cases hn
    simp [genGo, hch]
  | cons c pre ih =>
    intro cur n acc ch suf hn hch
    simp only [labelsQ, List.map_cons, nodeAt_cons] at hn
    cases hg : alistGet cur.children [c] with
    | none => rw [hg] at hn; cases hn
    | some m =>
      rw [hg] at hn
      simp only [List.cons_append, genGo, hg]
      exact ih m n _ ch suf hn hch

theorem genGo_cases (pre : List Char) :
    ∀ (cur : TrieNode) (acc : List Key),
      genGo cur acc pre = acc ∨ genGo cur acc pre = [] ∨
      ∃ p n, nodeAt cur p = some n ∧ genGo cur acc pre = n.suggestions := by
  induction pre with
  | nil =>
    intro cur acc
    exact Or.inl rfl
  | cons ch pre ih =>
    intro cur acc
    cases hg : alistGet cur.children [ch] with
    | none =>
      refine Or.inr (Or.inl ?_)
      simp [genGo, hg]
    | some next =>
      have hgen : genGo cur acc (ch :: pre) =
          genGo next (if next.suggestions.isEmpty then acc else next.suggestions) pre := by
        simp [genGo, hg]
      rcases ih next (if next.suggestions.isEmpty then acc else next.suggestions) with
        hA | hB | ⟨p, n, hp, hC⟩
      · rw [hgen, hA]
        by_cases hs : next.suggestions.isEmpty
        · rw [if_pos hs]
          exact Or.inl rfl
        · rw [if_neg hs]
          exact Or.inr (Or.inr ⟨[[ch]], next, nodeAt_cons_some cur next [ch] [] hg, rfl⟩)
      · rw [hgen, hB]
        exact Or.inr (Or.inl rfl)
      · refine Or.inr (Or.inr ⟨[ch] :: p, n, ?_, hgen.trans hC⟩)
        rw [nodeAt_cons_some cur next [ch] p hg]
        exact hp
    
theorem genGo_matched (pre : List Char) :
    ∀ (cur : TrieNode) (acc : List Key),
      (nodeAt cur (labelsQ pre)).isSome = true →
      genGo cur acc pre =
        (pathSuggs cur pre).foldl (fun a s => if s.isEmpty then a else s) acc := by
  induction pre with
  | nil =>
    intro cur acc _
    rfl
  | cons ch pre ih =>
    intro cur acc hn
    simp only [labelsQ, List.map_cons, nodeAt_cons] at hn
    cases hg : alistGet cur.children [ch] with
    | none => rw [hg] at hn; simp at hn
    | some m =>
      rw [hg] at hn
      simp only [genGo, hg, pathSuggs, List.foldl_cons]
      exact ih m _ hn

theorem query_step_store (st : QueryState) (ch : Char) :
    (generate_completions_by_char st ch).store = st.store := by
  rw [generate_completions_by_char]
  split
  · rfl
  · split
    · rfl
    · split
      · rfl
      · rfl

theorem query_fold_store (pre : List Char) :
    ∀ st : QueryState, (pre.foldl generate_completions_by_char st).store = st.store := by
  induction pre with
  | nil =>
    intro st
    rfl
  | cons ch pre ih =>
    intro st
    rw [List.foldl_cons, ih, query_step_store]

/-! ## Helpers for the claim theorems -/

theorem setRcSugg_self (n : TrieNode) : n.setRcSugg n.rc n.suggestions = n :=
  TrieNode.ext _ _ rfl rfl rfl rfl rfl

/-- A trie built by inserting `rs` into a fresh trie satisfies the
invariant. -/
theorem built_inv (ms : Int) (mw : Nat) (rs : List Key) (t : Trie) (hms : 0 ≤ ms)
    (hbuild : insertList (Trie.init (.int ms) mw) rs = .ok t) : TrieInv ms t := by
  obtain ⟨t', heq, hinv, _, _, _⟩ :=
    insertList_spec ms rs (Trie.init (.int ms) mw) (trieInv_init ms hms mw)
  rw [hbuild] at heq
  injection heq with h
  rw [h]
  exact hinv

theorem built_paths (ms : Int) (mw : Nat) (rs : List Key) (t : Trie) (hms : 0 ≤ ms)
    (hbuild : insertList (Trie.init (.int ms) mw) rs = .ok t) :
    ∀ q, ((nodeAt t.root q).isSome = true ↔
      (q = [] ∨ ∃ r ∈ rs, q ∈ prefixesOf (labelsOf r))) := by
  obtain ⟨t', heq, _, _, _, hpath⟩ :=
    insertList_spec ms rs (Trie.init (.int ms) mw) (trieInv_init ms hms mw)
  rw [hbuild] at heq
  injection heq with h
  subst h
  intro q
  rw [hpath q]
  have hinit : ((nodeAt (Trie.init (.int ms) mw).root q).isSome = true ↔ q = []) := by
    cases q with
    | nil => simp
    | cons k ks =>
      rw [nodeAt_cons]
      constructor
      · intro hx
        simp only [Trie.init, TrieNode.init_children, alistGet] at hx
        cases hx
      · intro hx
        cases hx
  rw [hinit]

theorem generate_suggestions_neg_int (d : Dict) (n : Int) (h : n < 0) :
    generate_suggestions d (.int n) = .error .valueError := by
  have hx : (PyNum.int n).isNeg = true := by
    simp [PyNum.isNeg]
    omega
  simp [generate_suggestions, hx]

theorem generate_suggestions_neg_float (d : Dict) (x : Int) (h : x < 0) :
    generate_suggestions d (.float x) = .error .valueError := by
  have hx : (PyNum.float x).isNeg = true := by
    simp [PyNum.isNeg]
    omega
  simp [generate_suggestions, hx]

theorem generate_suggestions_float (d : Dict) (x : Int) (h : 0 ≤ x) :
    generate_suggestions d (.float x) = .error .typeError := by
  have hx : (PyNum.float x).isNeg = false := by
    simp [PyNum.isNeg]
    omega
  simp [generate_suggestions, hx]

/-- On a fresh trie, the first insertion reaches `generate_suggestions`
exactly at the transition out of the root (the root's child is always a
decision destination): if the limit makes every ranking request fail with
`e`, the insertion raises `e`. -/
theorem trieGo_fresh_err (cfg : PyNum) (mw : Nat) (r : Key) (e : PyErr) (c : Key)
    (rest : List Key) (hgen : ∀ d : Dict, generate_suggestions d cfg = .error e) :
    trieGo cfg mw r true (TrieNode.init ['/']) none [] (c :: rest) = .error e := by
  simp only [trieGo, TrieNode.init_rc, List.isEmpty_nil, if_true, ensure_child,
    TrieNode.init_children, alistSet, exceptBind_ok, alistGet,
    TrieNode.setChildren_children, if_pos rfl, decision_step, Bool.true_or,
    store_substring, TrieNode.setChildren_label, TrieNode.init_label]
  rw [if_pos (show (['/'] : Key) ≠ [' '] by decide)]
  simp only [exceptBind_ok, hgen, exceptBind_error]

theorem insert_fresh_err (cfg : PyNum) (mw : Nat) (r : Key) (e : PyErr)
    (hgen : ∀ d : Dict, generate_suggestions d cfg = .error e) :
    insert_response (Trie.init cfg mw) r = .error e := by
  obtain ⟨c, rest, hlr⟩ : ∃ c rest, r.map (fun ch : Char => [ch]) ++ [[]] = c :: rest := by
    cases r with
    | nil => exact ⟨[], [], rfl⟩
    | cons a as => exact ⟨[a], _, rfl⟩
  simp only [insert_response, hlr]
  rw [show (Trie.init cfg mw).root = TrieNode.init ['/'] from rfl,
    show (Trie.init cfg mw).maxSuggestions = cfg from rfl,
    show (Trie.init cfg mw).minWords = mw from rfl,
    trieGo_fresh_err cfg mw r e c rest hgen]
  rfl


/-! ## The claims -/

/-- C1: after any sequence of `insert_response` calls on a trie configured
with a non-negative integer `max_suggestions`, every node's cached
`suggestions` equals the keys of its `response_count` stably sorted by
(count descending, string length ascending) truncated to `max_suggestions`
entries, and recomputing the ranking from the same counter returns the node
unchanged (idempotence; the recomputation is re-run by the code at every
counter change, which is why the equality survives every insertion). -/
theorem C1_suggestions_match_counts (ms : Int) (mw : Nat) (rs : List Key) (t : Trie)
    (hms : 0 ≤ ms) (hbuild : insertList (Trie.init (.int ms) mw) rs = .ok t) :
    ∀ p n, nodeAt t.root p = some n →
      n.suggestions = (sortKeysDesc n.rc (n.rc.map (·.1))).take ms.toNat ∧
      regen (.int ms) n = .ok n := by
  obtain ⟨_, _, _, _, hSugg, _, _⟩ := built_inv ms mw rs t hms hbuild
  intro p n hp
  have hgen := hSugg p n hp
  constructor
  · have hint := generate_suggestions_int n.rc ms hms
    rw [hint] at hgen
    injection hgen with h
    exact h.symm
  · simp only [regen, hgen, exceptBind_ok, setRcSugg_self]

theorem C1_witness :
    nodeA.suggestions = (sortKeysDesc nodeA.rc (nodeA.rc.map (·.1))).take (3:Int).toNat ∧
    regen (.int 3) nodeA = .ok nodeA :=
  C1_suggestions_match_counts 3 4 [str "ab", str "ac"] trieAB (by decide) (by rfl)
    [str "a"] nodeA (by rfl)

/-- C2 counterexample: with `max_suggestions = 5` but `min_words_partial`
at its code default of `4`, the six scenario insertions do not produce the
claimed completion list for prefix `"w"` (the partial phrase
`"what is the"` spans only three words and is never recorded). -/
theorem C2_counterexample :
    (insertList (Trie.init (.int 5) 4) rsC2).map
      (fun t => generate_completions t (str "w")) ≠ .ok expectedC2 := by decide

/-- C2 amended: the claim holds with `min_words_partial` set to `3` — the value
the repository's own test uses — instead of the default `4`: the six
insertions followed by `generate_completions("w")` produce exactly the
expected five completions in order. -/
theorem C2_amended :
    (insertList (Trie.init (.int 5) 3) rsC2).map
      (fun t => generate_completions t (str "w")) = .ok expectedC2 := by decide

/-- C3 counterexample: inserting the same two-response multiset
`{"ab", "ac"}` in its two orders yields tries whose cached `suggestions`
lists at the root's `'a'` child differ (the stable sort breaks the
count/length tie by dict insertion order). -/
theorem C3_counterexample :
    [str "ab", str "ac"].Perm [str "ac", str "ab"] ∧
    (nodeAt trieAB.root [str "a"]).map TrieNode.suggestions ≠
      (nodeAt trieBA.root [str "a"]).map TrieNode.suggestions :=
  ⟨List.Perm.swap (str "ac") (str "ab") [], by decide⟩

/-- C3 amended: inserting the responses of a multiset in any two orders
yields structurally identical tries — the same set of reachable node paths —
though the `counts`/`suggestions` at corresponding nodes may differ. -/
theorem C3_amended (ms : Int) (mw : Nat) (rs1 rs2 : List Key) (t1 t2 : Trie)
    (hms : 0 ≤ ms) (hperm : rs1.Perm rs2)
    (h1 : insertList (Trie.init (.int ms) mw) rs1 = .ok t1)
    (h2 : insertList (Trie.init (.int ms) mw) rs2 = .ok t2) :
    ∀ q, (nodeAt t1.root q).isSome = (nodeAt t2.root q).isSome := by
  intro q
  have hp1 := built_paths ms mw rs1 t1 hms h1 q
  have hp2 := built_paths ms mw rs2 t2 hms h2 q
  have hiff : ((nodeAt t1.root q).isSome = true ↔ (nodeAt t2.root q).isSome = true) := by
    rw [hp1, hp2]
    constructor
    · rintro (h | ⟨r, hr, hq⟩)
      · exact Or.inl h
      · exact Or.inr ⟨r, hperm.mem_iff.1 hr, hq⟩
    · rintro (h | ⟨r, hr, hq⟩)
      · exact Or.inl h
      · exact Or.inr ⟨r, hperm.mem_iff.2 hr, hq⟩
  have hbool : ∀ a b : Bool, (a = true ↔ b = true) → a = b := by decide
  exact hbool _ _ hiff

theorem C3_witness :
    (nodeAt trieAB.root [str "a"]).isSome = (nodeAt trieBA.root [str "a"]).isSome :=
  C3_amended 3 4 [str "ab", str "ac"] [str "ac", str "ab"] trieAB trieBA (by decide)
    (List.Perm.swap (str "ac") (str "ab") []) (by rfl) (by rfl) [str "a"]

/-- C4: after any sequence of insertions, `response_count` is non-empty
only at decision nodes — children of the root (`p = []`) or children of a
node with more than one child — and the root itself always has an empty
counter. -/
theorem C4_counts_only_at_decision_nodes (ms : Int) (mw : Nat) (rs : List Key) (t : Trie)
    (hms : 0 ≤ ms) (hbuild : insertList (Trie.init (.int ms) mw) rs = .ok t) :
    t.root.rc = [] ∧
    ∀ p n k m, nodeAt t.root p = some n → alistGet n.children k = some m → m.rc ≠ [] →
      (p = [] ∨ 1 < n.children.length) := by
  obtain ⟨_, _, _, hrc, _, _, hDec⟩ := built_inv ms mw rs t hms hbuild
  refine ⟨hrc, fun p n k m hp hk hm => ?_⟩
  rcases hDec p n k m hp hk hm with ⟨hp0, _⟩ | hlen
  · exact Or.inl hp0
  · exact Or.inr hlen

theorem C4_witness :
    trieAB.root.rc = [] ∧ (([] : List Key) = [] ∨ 1 < trieAB.root.children.length) := by
  have h := C4_counts_only_at_decision_nodes 3 4 [str "ab", str "ac"] trieAB (by decide) (by rfl)
  exact ⟨h.1, h.2 [] trieAB.root (str "a") nodeA rfl (by rfl) (by decide)⟩

/-- C5 counterexample: `max_suggestions = -5.0` is a non-integer value, for
which the claim requires a TypeMismatch error; the code's sign test fires
first and raises `ValueError` instead. -/
theorem C5_counterexample :
    insert_response (Trie.init (.float (-5)) 4) (str " ") = .error .valueError ∧
    PyErr.valueError ≠ PyErr.typeError :=
  ⟨insert_fresh_err (.float (-5)) 4 (str " ") .valueError
      (fun d => generate_suggestions_neg_float d (-5) (by decide)),
   by decide⟩

/-- C5 amended: constructing a trie with a bad `max_suggestions` never
raises; the failure occurs at the first count-changing insertion (or a
direct ranking request): any negative limit — integer or float — raises
`ValueError`, a non-negative non-integer limit raises `TypeError`, and on a
fresh trie these two are the only error kinds an insertion can produce. -/
theorem C5_amended :
    (∀ (cfg : PyNum) (mw : Nat), (Trie.init cfg mw).maxSuggestions = cfg ∧
      (Trie.init cfg mw).minWords = mw ∧ (Trie.init cfg mw).root.label = ['/']) ∧
    (∀ (n : Int) (mw : Nat) (r : Key), n < 0 →
      insert_response (Trie.init (.int n) mw) r = .error .valueError) ∧
    (∀ (x : Int) (mw : Nat) (r : Key), 0 ≤ x →
      insert_response (Trie.init (.float x) mw) r = .error .typeError) ∧
    (∀ (x : Int) (mw : Nat) (r : Key), x < 0 →
      insert_response (Trie.init (.float x) mw) r = .error .valueError) ∧
    (∀ (cfg : PyNum) (mw : Nat) (r : Key),
      (∃ t', insert_response (Trie.init cfg mw) r = .ok t') ∨
      insert_response (Trie.init cfg mw) r = .error .valueError ∨
      insert_response (Trie.init cfg mw) r = .error .typeError) := by
  refine ⟨fun cfg mw => ⟨rfl, rfl, rfl⟩, ?_, ?_, ?_, ?_⟩
  · intro n mw r h
    exact insert_fresh_err _ _ _ _ (fun d => generate_suggestions_neg_int d n h)
  · intro x mw r h
    exact insert_fresh_err _ _ _ _ (fun d => generate_suggestions_float d x h)
  · intro x mw r h
    exact insert_fresh_err _ _ _ _ (fun d => generate_suggestions_neg_float d x h)
  · intro cfg mw r
    cases cfg with
    | int n =>
      by_cases h : 0 ≤ n
      · obtain ⟨t', ht', _, _, _, _⟩ :=
          insert_response_spec n (Trie.init (.int n) mw) r (trieInv_init n h mw)
        exact Or.inl ⟨t', ht'⟩
      · exact Or.inr (Or.inl (insert_fresh_err _ _ _ _
          (fun d => generate_suggestions_neg_int d n (by omega))))
    | float x =>
      by_cases h : 0 ≤ x
      · exact Or.inr (Or.inr (insert_fresh_err _ _ _ _
          (fun d => generate_suggestions_float d x h)))
      · exact Or.inr (Or.inl (insert_fresh_err _ _ _ _
          (fun d => generate_suggestions_neg_float d x (by omega))))

theorem C5_witness :
    insert_response (Trie.init (.int (-5)) 4) (str " ") = .error .valueError ∧
    insert_response (Trie.init (.float 5) 4) (str " ") = .error .typeError :=
  ⟨C5_amended.2.1 (-5) 4 (str " ") (by decide),
   C5_amended.2.2.1 5 4 (str " ") (by decide)⟩

/-- C6: the query scans the prefix strictly left-to-right: at the first
character with no matching child it returns `[]`, whatever characters
follow; if every character matches, it returns the cached suggestions of
the deepest node along the path with a non-empty suggestions list (or `[]`
if none is); either way the result has at most `max_suggestions` strings. -/
theorem C6_query_walk (ms : Int) (mw : Nat) (rs : List Key) (t : Trie)
    (hms : 0 ≤ ms) (hbuild : insertList (Trie.init (.int ms) mw) rs = .ok t) :
    (∀ (pre : List Char) (n : TrieNode) (ch : Char) (suf1 suf2 : List Char),
      nodeAt t.root (labelsQ pre) = some n → alistGet n.children [ch] = none →
      generate_completions t (pre ++ ch :: suf1) = [] ∧
      generate_completions t (pre ++ ch :: suf1) = generate_completions t (pre ++ ch :: suf2)) ∧
    (∀ pre : List Char, (nodeAt t.root (labelsQ pre)).isSome = true →
      generate_completions t pre = lastNonempty (pathSuggs t.root pre)) ∧
    (∀ pre : List Char, (generate_completions t pre).length ≤ ms.toNat) := by
  obtain ⟨_, _, _, _, hSugg, _, _⟩ := built_inv ms mw rs t hms hbuild
  refine ⟨?_, ?_, ?_⟩
  · intro pre n ch suf1 suf2 hn hch
    have h1 := genGo_mismatch pre t.root n [] ch suf1 hn hch
    have h2 := genGo_mismatch pre t.root n [] ch suf2 hn hch
    exact ⟨h1, h1.trans h2.symm⟩
  · intro pre hp
    simp only [generate_completions, lastNonempty]
    exact genGo_matched pre t.root [] hp
  · intro pre
    rcases genGo_cases pre t.root [] with h | h | ⟨p, n, hp, h⟩
    · simp only [generate_completions, h]
      simp
    · simp only [generate_completions, h]
      simp
    · simp only [generate_completions, h]
      exact generate_suggestions_len n.rc ms n.suggestions (hSugg p n hp)

theorem C6_witness : (generate_completions trieAB (str "a")).length ≤ (3:Int).toNat :=
  (C6_query_walk 3 4 [str "ab", str "ac"] trieAB (by decide) (by rfl)).2.2 (str "a")

/-- C7: the query engine never mutates the node store: after a full
`generate_completions` call with the object state threaded through, the
store — hence every node's label, children, flag, counter and suggestions —
is exactly the one the call started from. -/
theorem C7_query_preserves_store (t : Trie) (pre : List Char) :
    (generate_completions_st t pre).2.store = t.root ∧
    ∀ q, nodeAt (generate_completions_st t pre).2.store q = nodeAt t.root q := by
  have h : (generate_completions_st t pre).2.store = t.root := by
    simp only [generate_completions_st]
    exact query_fold_store pre (reset_for_auto_complete t)
  exact ⟨h, fun q => by rw [h]⟩

/-- C9: with a non-negative integer `max_suggestions`, every sequence of
insertions runs to completion without raising — in particular the
branch-event correction always finds a snapshot containing the in-flight
response, so the copy and the deletion always succeed. -/
theorem C9_insert_never_raises (ms : Int) (mw : Nat) (rs : List Key) (hms : 0 ≤ ms) :
    ∃ t, insertList (Trie.init (.int ms) mw) rs = .ok t := by
  obtain ⟨t, heq, _, _, _, _⟩ :=
    insertList_spec ms rs (Trie.init (.int ms) mw) (trieInv_init ms hms mw)
  exact ⟨t, heq⟩

theorem C9_witness :
    ∃ t, insertList (Trie.init (.int 3) 4) [str "ab", str "ac"] = .ok t :=
  C9_insert_never_raises 3 4 [str "ab", str "ac"] (by decide)

/-- C10: `max_suggestions = 0` is accepted: every insertion succeeds, every
node's cached suggestions list is empty, and every query returns the empty
list. -/
theorem C10_zero_limit (mw : Nat) (rs : List Key) :
    ∃ t, insertList (Trie.init (.int 0) mw) rs = .ok t ∧
      (∀ p n, nodeAt t.root p = some n → n.suggestions = []) ∧
      (∀ pre : List Char, generate_completions t pre = []) := by
  obtain ⟨t, heq, hinv, _, _, _⟩ :=
    insertList_spec 0 rs (Trie.init (.int 0) mw) (trieInv_init 0 le_rfl mw)
  obtain ⟨_, _, _, _, hSugg, _, _⟩ := hinv
  have hsugg0 : ∀ p n, nodeAt t.root p = some n → n.suggestions = [] := by
    intro p n hp
    have hgen := hSugg p n hp
    rw [generate_suggestions_int n.rc 0 le_rfl] at hgen
    injection hgen with h
    rw [← h]
    simp
  refine ⟨t, heq, hsugg0, fun pre => ?_⟩
  rcases genGo_cases pre t.root [] with h | h | ⟨p, n, hp, h⟩
  · simpa [generate_completions] using h
  · simpa [generate_completions] using h
  · simp only [generate_completions, h]
    exact hsugg0 p n hp

/-- C8: inserting the empty response never raises (given a valid limit): it
performs only the single end-of-string sentinel transition from the root,
creating the root's sentinel-labelled child when absent and reusing it
otherwise; all other children of the root are untouched. -/
theorem C8_empty_response (ms : Int) (t : Trie)
    (hcfg : t.maxSuggestions = .int ms) (hms : 0 ≤ ms) (hlab : t.root.label = ['/']) :
    ∃ t', insert_response t [] = .ok t' ∧
      (∀ k : Key, k ≠ [] → alistGet t'.root.children k = alistGet t.root.children k) ∧
      (alistGet t'.root.children ([] : Key)).isSome = true ∧
      t'.root.children.length =
        (if (alistGet t.root.children ([] : Key)).isSome then t.root.children.length
         else t.root.children.length + 1) := by
  set snap1 : Option Dict := if t.root.rc.isEmpty then none else some t.root.rc
    with hsnap1def
  obtain ⟨current1, hE, hlab1, hrc1, hsugg1, hcase⟩ :=
    ensure_child_spec ms [] true snap1 t.root [] hms (fun h => nomatch h)
  obtain ⟨next, hnext, hnshape⟩ : ∃ next, alistGet current1.children [] = some next ∧
      (alistGet t.root.children [] = some next ∨
       (alistGet t.root.children [] = none ∧ next = TrieNode.init [])) := by
    rcases hcase with ⟨hemp, hch1, _⟩ | ⟨heq, hsome⟩ | ⟨_, hnone, _, _, hgetc, _⟩
    · exact ⟨TrieNode.init [], by simp [hch1, alistGet],
        Or.inr ⟨by simp [hemp, alistGet], rfl⟩⟩
    · obtain ⟨m, hm⟩ := Option.isSome_iff_exists.1 hsome
      exact ⟨m, heq ▸ hm, Or.inl hm⟩
    · exact ⟨TrieNode.init [], hgetc, Or.inr ⟨hnone, rfl⟩⟩
  obtain ⟨next1, subO, hD, hDcase⟩ :=
    decision_step_spec ms t.minWords [] true current1 [] snap1 next hms
      (fun _ => hlab1.trans hlab) (fun h => nomatch h)
  have hrec : trieGo (.int ms) t.minWords [] false next1 snap1 ([] ++ ([] : Key)) [] =
      .ok (next1, []) := rfl
  have hC2 : (if t.root.rc.isEmpty then Except.ok current1
      else applySubs (.int ms) current1 []) = .ok current1 := by
    by_cases hx : t.root.rc.isEmpty = true
    · rw [if_pos hx]
    · rw [if_neg hx]
      rfl
  refine ⟨{ t with root := current1.setChildren (alistSet current1.children [] next1) },
    ?_, ?_, ?_, ?_⟩
  · simp only [insert_response, List.map_nil, List.nil_append, hcfg]
    simp only [trieGo]
    rw [← hsnap1def]
    simp only [hE, exceptBind_ok, hnext, hD, hrec]
    by_cases hx : List.isEmpty t.root.rc = true
    · rw [if_pos hx] at hC2 ⊢
      injection hC2 with h2
      rw [h2]
      rfl
    · rw [if_neg hx] at hC2 ⊢
      rw [hC2]
      rfl
  · intro k hk
    simp only [TrieNode.setChildren_children]
    rw [alistGet_set, if_neg hk]
    rcases hcase with ⟨hemp, hch1, _⟩ | ⟨heq, _⟩ | ⟨_, _, _, _, _, hothers⟩
    · rw [hch1, hemp]
      simp [alistGet, hk]
    · rw [heq]
    · rcases hothers k hk with he | ⟨m0, d1, s, hIRf, _, _, _⟩
      · exact he
      · exact nomatch hIRf
  · simp only [TrieNode.setChildren_children]
    rw [alistGet_set, if_pos rfl]
    rfl
  · simp only [TrieNode.setChildren_children]
    rw [alistSet_length_of_mem current1.children [] next1 (by rw [hnext]; rfl)]
    rcases hcase with ⟨hemp, hch1, _⟩ | ⟨heq, hsome2⟩ | ⟨_, hnone, _, hlen1, _, _⟩
    · rw [hch1, hemp]
      simp [alistGet]
    · rw [heq]
      rcases hnshape with hm | ⟨hnone, _⟩
      · rw [if_pos (by rw [hm]; rfl)]
      · rw [hnone] at hsome2
        cases hsome2
    · rw [hlen1, if_neg (by rw [hnone]; simp)]

theorem C8_witness :
    ∃ t', insert_response (Trie.init (.int 3) 4) [] = .ok t' ∧
      (∀ k : Key, k ≠ [] →
        alistGet t'.root.children k = alistGet (Trie.init (.int 3) 4).root.children k) ∧
      (alistGet t'.root.children ([] : Key)).isSome = true ∧
      t'.root.children.length =
        (if (alistGet (Trie.init (.int 3) 4).root.children ([] : Key)).isSome
         then (Trie.init (.int 3) 4).root.children.length
         else (Trie.init (.int 3) 4).root.children.length + 1) :=
  C8_empty_response 3 (Trie.init (.int 3) 4) rfl (by decide) rfl
